import Mathlib

/-!
Verification of the financial document-extraction backend.

Text is embedded as `List Char`. Pure Python string helpers (`strip`,
`lower`, `replace`, `in`, `split`) are translated to executable Lean
functions; the remote OCR service and the language-model calls are opaque
collaborators and enter the model as function parameters.
-/

set_option maxHeartbeats 1000000

namespace FinExtract

/-- Python `str.isspace` restricted to the ASCII whitespace characters. -/
def pyIsSpace (c : Char) : Bool :=
  c = ' ' || c = '\t' || c = '\n' || c = '\r' || c = '\x0b' || c = '\x0c'

/-- Left part of Python `str.strip`: drop leading whitespace. -/
def stripLeft (s : List Char) : List Char :=
  s.dropWhile pyIsSpace

/-- Right part of Python `str.strip`: drop trailing whitespace. -/
def stripRight (s : List Char) : List Char :=
  (s.reverse.dropWhile pyIsSpace).reverse

/-- Python `str.strip`: drop whitespace from both ends. -/
def pyStrip (s : List Char) : List Char :=
  stripRight (stripLeft s)

/-- Python `str.lower` on the ASCII range (identity elsewhere). -/
def pyLower (c : Char) : Char :=
  match c with
  | 'A' => 'a' | 'B' => 'b' | 'C' => 'c' | 'D' => 'd' | 'E' => 'e' | 'F' => 'f'
  | 'G' => 'g' | 'H' => 'h' | 'I' => 'i' | 'J' => 'j' | 'K' => 'k' | 'L' => 'l'
  | 'M' => 'm' | 'N' => 'n' | 'O' => 'o' | 'P' => 'p' | 'Q' => 'q' | 'R' => 'r'
  | 'S' => 's' | 'T' => 't' | 'U' => 'u' | 'V' => 'v' | 'W' => 'w' | 'X' => 'x'
  | 'Y' => 'y' | 'Z' => 'z'
  | c => c

/-- Python `pat in s` substring test. -/
def containsSub (pat : List Char) : List Char → Bool
  | [] => pat.isEmpty
  | a :: t => pat.isPrefixOf (a :: t) || containsSub pat t

/-- Python `s.split(chr(10))` on character lists. -/
def splitNl : List Char → List (List Char)
  | [] => [[]]
  | c :: t =>
    if c = '\n' then [] :: splitNl t
    else
      match splitNl t with
      | [] => [[c]]
      | h :: r => (c :: h) :: r

/-- Python `(chr(10)).join`. -/
def joinNl : List (List Char) → List Char
  | [] => []
  | [l] => l
  | l :: t => l ++ '\n' :: joinNl t

/-- Python `s.replace(pat, rep)`: replace non-overlapping occurrences left to
right, never rescanning the replacement.  (The `pat = []` guard only serves
termination; every pattern in the source table is non-empty.) -/
def replaceList (pat rep : List Char) : List Char → List Char
  | [] => []
  | a :: s =>
    if pat ≠ [] ∧ pat.isPrefixOf (a :: s) then
      rep ++ replaceList pat rep ((a :: s).drop pat.length)
    else
      a :: replaceList pat rep s
termination_by s => s.length
decreasing_by
  · rename_i h
    have hpos : 0 < pat.length := List.length_pos.mpr h.1
    simp only [List.length_drop, List.length_cons]
    omega
  · simp

/-- The replacement table of `fix_common_ocr_errors`, in Python dict
insertion order (utils.py lines 140-170). -/
def ocrReplacements : List (List Char × List Char) :=
  [(['€'], ['€']), (['$'], ['$']), (['£'], ['£']),
   (['O'], ['0']), (['l'], ['1']), (['I'], ['1']), (['S'], ['5']),
   (['l', 'n', 'v', 'o', 'i', 'c', 'e'], ['I', 'n', 'v', 'o', 'i', 'c', 'e']),
   (['l', 'n', 'v'], ['I', 'n', 'v']),
   (['T', 'o', 't', 'a', 'I'], ['T', 'o', 't', 'a', 'l']),
   (['A', 'm', 'o', 'u', 'n', 't'], ['A', 'm', 'o', 'u', 'n', 't']),
   (['V', 'A', 'T'], ['V', 'A', 'T']), (['B', 'T', 'W'], ['B', 'T', 'W']),
   (['0', 'l'], ['0', '1']), (['0', '2'], ['0', '2']), (['0', '3'], ['0', '3']),
   (['0', '4'], ['0', '4']), (['0', '5'], ['0', '5']), (['0', '6'], ['0', '6']),
   (['0', '7'], ['0', '7']), (['0', '8'], ['0', '8']), (['0', '9'], ['0', '9'])]

/-- utils.py `fix_common_ocr_errors`: apply each table entry in order. -/
def fix_common_ocr_errors (t : List Char) : List Char :=
  ocrReplacements.foldl (fun s pr => replaceList pr.1 pr.2 s) t

/-- The loop body of `clean_financial_text` (utils.py lines 116-125): trim
each line, keep non-empty lines, emit at most one blank line per blank run,
never at the start.  `canBlank` records whether the accumulated output ends
in a non-blank line. -/
def cleanLinesAux (canBlank : Bool) : List (List Char) → List (List Char)
  | [] => []
  | l :: t =>
    let cl := pyStrip l
    if cl ≠ [] then cl :: cleanLinesAux true t
    else if canBlank then [] :: cleanLinesAux false t
    else cleanLinesAux canBlank t

def cleanLines (lines : List (List Char)) : List (List Char) :=
  cleanLinesAux false lines

/-- utils.py `clean_financial_text`. -/
def clean_financial_text (t : List Char) : List Char :=
  if t = [] then t
  else fix_common_ocr_errors (joinNl (cleanLines (splitNl t)))

/-- The effective single-character substitution performed by the OCR table:
`O`, `l`, `I`, `S` become digits, everything else is untouched. -/
def ocrCharFix (c : Char) : Char :=
  if c = 'O' then '0'
  else if c = 'l' then '1'
  else if c = 'I' then '1'
  else if c = 'S' then '5'
  else c

/-- Python `s.replace(c, d)` for single characters. -/
def substChar (a b : Char) (c : Char) : Char :=
  if c = a then b else c

theorem replaceList_self (p : List Char) (s : List Char) : replaceList p p s = s := by
  have H : ∀ (n : Nat) (s : List Char), s.length ≤ n → replaceList p p s = s := by
    intro n
    induction n with
    | zero =>
      intro s hs
      have hnil : s = [] := List.length_eq_zero.mp (Nat.le_zero.mp hs)
      subst hnil
      simp only [replaceList]
    | succ n ih =>
      intro s hs
      match s with
      | [] => simp only [replaceList]
      | a :: s =>
        simp only [replaceList]
        split
        · rename_i h
          obtain ⟨as, ha⟩ := List.isPrefixOf_iff_prefix.mp h.2
          conv_rhs => rw [← ha]
          rw [← ha, List.drop_left]
          congr 1
          apply ih
          have hp := List.length_pos.mpr h.1
          have hlen : p.length + as.length = s.length + 1 := by
            rw [← List.length_append, ha]
            simp
          simp only [List.length_cons] at hs
          omega
        · simp only [List.length_cons] at hs
          rw [ih s (by omega)]
  exact H s.length s le_rfl

theorem replaceList_single (a b : Char) (s : List Char) :
    replaceList [a] [b] s = s.map (substChar a b) := by
  induction s with
  | nil => simp only [replaceList, List.map_nil]
  | cons c t ih =>
    simp only [replaceList]
    by_cases hc : c = a
    · subst hc
      rw [if_pos ⟨by simp, by simp [List.isPrefixOf]⟩]
      simp [substChar, ih]
    · rw [if_neg]
      · simp [substChar, hc, ih]
      · rintro ⟨-, hpre⟩
        simp only [List.isPrefixOf, Bool.and_eq_true, beq_iff_eq] at hpre
        exact hc hpre.1.symm

theorem replaceList_of_not_mem {c : Char} {p : List Char} (r : List Char) (hc : c ∈ p)
    {s : List Char} (hs : c ∉ s) : replaceList p r s = s := by
  induction s with
  | nil => simp only [replaceList]
  | cons a t ih =>
    simp only [replaceList]
    rw [if_neg, ih (fun h => hs (List.mem_cons_of_mem a h))]
    rintro ⟨-, hpre⟩
    exact hs ((List.isPrefixOf_iff_prefix.mp hpre).sublist.subset hc)

theorem ocrCharFix_ne_l (t : List Char) : 'l' ∉ t.map ocrCharFix := by
  intro hmem
  obtain ⟨x, -, hx⟩ := List.mem_map.mp hmem
  revert hx
  unfold ocrCharFix
  split_ifs with h1 h2 h3 h4 <;> simp_all

theorem ocrCharFix_ne_I (t : List Char) : 'I' ∉ t.map ocrCharFix := by
  intro hmem
  obtain ⟨x, -, hx⟩ := List.mem_map.mp hmem
  revert hx
  unfold ocrCharFix
  split_ifs with h1 h2 h3 h4 <;> simp_all

theorem substChar_chain (c : Char) :
    substChar 'S' '5' (substChar 'I' '1' (substChar 'l' '1' (substChar 'O' '0' c))) =
      ocrCharFix c := by
  unfold substChar ocrCharFix
  split_ifs <;> simp_all

/-- The whole substitution table acts as the pointwise map `ocrCharFix`: the
single-character rules fire first and starve every multi-character rule. -/
theorem fix_eq_map (t : List Char) : fix_common_ocr_errors t = t.map ocrCharFix := by
  have hmaps : ∀ u : List Char,
      (((u.map (substChar 'O' '0')).map (substChar 'l' '1')).map
        (substChar 'I' '1')).map (substChar 'S' '5') = u.map ocrCharFix := by
    intro u
    simp only [List.map_map]
    exact List.map_congr_left fun x _ => substChar_chain x
  simp only [fix_common_ocr_errors, ocrReplacements, List.foldl_cons, List.foldl_nil]
  simp only [replaceList_self, replaceList_single]
  rw [hmaps]
  rw [replaceList_of_not_mem (c := 'l') _ (by simp) (ocrCharFix_ne_l t)]
  rw [replaceList_of_not_mem (c := 'l') _ (by simp) (ocrCharFix_ne_l t)]
  rw [replaceList_of_not_mem (c := 'I') _ (by simp) (ocrCharFix_ne_I t)]
  rw [replaceList_of_not_mem (c := 'l') _ (by simp) (ocrCharFix_ne_l t)]

theorem ocrCharFix_idem (c : Char) : ocrCharFix (ocrCharFix c) = ocrCharFix c := by
  unfold ocrCharFix
  split_ifs <;> simp_all

theorem ocrCharFix_nl : ocrCharFix '\n' = '\n' := by decide

theorem ocrCharFix_eq_nl {c : Char} (h : ocrCharFix c = '\n') : c = '\n' := by
  revert h
  unfold ocrCharFix
  split_ifs <;> simp_all

theorem pyIsSpace_ocrCharFix (c : Char) : pyIsSpace (ocrCharFix c) = pyIsSpace c := by
  unfold ocrCharFix
  split_ifs <;> subst_vars <;> rfl

theorem stripLeft_idem (s : List Char) : stripLeft (stripLeft s) = stripLeft s :=
  List.dropWhile_idempotent _ _

theorem stripRight_idem (s : List Char) : stripRight (stripRight s) = stripRight s := by
  unfold stripRight
  rw [List.reverse_reverse, List.dropWhile_idempotent]

theorem stripLeft_suffix (s : List Char) : stripLeft s <:+ s :=
  List.dropWhile_suffix _

theorem stripRight_prefix (s : List Char) : stripRight s <+: s := by
  have h := List.reverse_prefix.mpr (List.dropWhile_suffix (l := s.reverse) pyIsSpace)
  rwa [List.reverse_reverse] at h

theorem head?_stripLeft {s : List Char} {c : Char} (h : (stripLeft s).head? = some c) :
    pyIsSpace c = false := by
  have hd := List.head?_dropWhile_not pyIsSpace s
  unfold stripLeft at h
  rw [h] at hd
  exact hd

theorem stripLeft_eq_self {s : List Char}
    (h : ∀ c, s.head? = some c → pyIsSpace c = false) : stripLeft s = s := by
  cases s with
  | nil => rfl
  | cons a t =>
    unfold stripLeft
    rw [List.dropWhile_cons_of_neg]
    simp [h a rfl]

theorem pyStrip_idem (s : List Char) : pyStrip (pyStrip s) = pyStrip s := by
  unfold pyStrip
  have h1 : stripLeft (stripRight (stripLeft s)) = stripRight (stripLeft s) := by
    apply stripLeft_eq_self
    intro c hc
    obtain ⟨t, ht⟩ := stripRight_prefix (stripLeft s)
    apply head?_stripLeft (s := s)
    rw [← ht]
    cases hx : stripRight (stripLeft s) with
    | nil => rw [hx] at hc; exact absurd hc (by simp)
    | cons a y =>
      rw [hx] at hc
      simp only [List.head?_cons, Option.some.injEq] at hc
      simp [hc]
  rw [h1, stripRight_idem]

theorem pyStrip_isInfix (s : List Char) : pyStrip s <:+: s := by
  obtain ⟨t, ht⟩ := stripRight_prefix (stripLeft s)
  obtain ⟨u, hu⟩ := stripLeft_suffix s
  refine ⟨u, t, ?_⟩
  show u ++ pyStrip s ++ t = s
  unfold pyStrip
  rw [List.append_assoc, ht, hu]

theorem pyStrip_subset {s : List Char} {c : Char} (h : c ∈ pyStrip s) : c ∈ s :=
  (pyStrip_isInfix s).sublist.subset h

theorem pyStrip_map_ocr (s : List Char) :
    pyStrip (s.map ocrCharFix) = (pyStrip s).map ocrCharFix := by
  have hfun : (pyIsSpace ∘ ocrCharFix) = pyIsSpace := funext pyIsSpace_ocrCharFix
  unfold pyStrip stripLeft stripRight
  rw [List.dropWhile_map, hfun, ← List.map_reverse, List.dropWhile_map, hfun, ← List.map_reverse]

theorem pyStrip_map_eq_nil {s : List Char} :
    (s.map ocrCharFix) = [] ↔ s = [] := List.map_eq_nil_iff

theorem splitNl_ne_nil (s : List Char) : splitNl s ≠ [] := by
  cases s with
  | nil => simp [splitNl]
  | cons c t =>
    unfold splitNl
    split
    · simp
    · split <;> simp

theorem splitNl_map (s : List Char) :
    splitNl (s.map ocrCharFix) = (splitNl s).map (List.map ocrCharFix) := by
  induction s with
  | nil => rfl
  | cons c t ih =>
    by_cases hc : c = '\n'
    · subst hc
      simp only [List.map_cons, ocrCharFix_nl]
      rw [splitNl, if_pos rfl, splitNl, if_pos rfl, ih]
      simp only [List.map_cons, List.map_nil]
    · have hc' : ocrCharFix c ≠ '\n' := fun h => hc (ocrCharFix_eq_nl h)
      simp only [List.map_cons]
      rw [splitNl, if_neg hc', splitNl, if_neg hc, ih]
      cases hx : splitNl t with
      | nil => exact absurd hx (splitNl_ne_nil t)
      | cons h r => simp

theorem joinNl_cons_cons (a b : List Char) (t : List (List Char)) :
    joinNl (a :: b :: t) = a ++ '\n' :: joinNl (b :: t) := rfl

theorem joinNl_map (L : List (List Char)) :
    joinNl (L.map (List.map ocrCharFix)) = (joinNl L).map ocrCharFix := by
  induction L with
  | nil => rfl
  | cons l t ih =>
    cases t with
    | nil => rfl
    | cons m u =>
      simp only [List.map_cons, joinNl_cons_cons] at ih ⊢
      rw [ih]
      simp [ocrCharFix_nl]

theorem splitNl_of_no_nl {x : List Char} (h : '\n' ∉ x) : splitNl x = [x] := by
  induction x with
  | nil => rfl
  | cons c t ih =>
    have hc : c ≠ '\n' := fun hx => h (hx ▸ List.mem_cons_self c t)
    rw [splitNl, if_neg hc, ih (fun hx => h (List.mem_cons_of_mem c hx))]

theorem splitNl_append {x : List Char} (r : List Char) (h : '\n' ∉ x) :
    splitNl (x ++ '\n' :: r) = x :: splitNl r := by
  induction x with
  | nil => simp [splitNl]
  | cons c t ih =>
    have hc : c ≠ '\n' := fun hx => h (hx ▸ List.mem_cons_self c t)
    simp only [List.cons_append]
    rw [splitNl, if_neg hc, ih (fun hx => h (List.mem_cons_of_mem c hx))]

theorem splitNl_joinNl {L : List (List Char)} (hne : L ≠ [])
    (hnl : ∀ l ∈ L, '\n' ∉ l) : splitNl (joinNl L) = L := by
  induction L with
  | nil => exact absurd rfl hne
  | cons l t ih =>
    cases t with
    | nil => exact splitNl_of_no_nl (hnl l (List.mem_cons_self l []))
    | cons m u =>
      have h1 : '\n' ∉ l := hnl l (List.mem_cons_self l _)
      have h2 : splitNl (joinNl (m :: u)) = m :: u :=
        ih (List.cons_ne_nil m u) (fun a ha => hnl a (List.mem_cons_of_mem l ha))
      rw [joinNl_cons_cons, splitNl_append _ h1, h2]

theorem mem_splitNl_no_nl (s : List Char) : ∀ l ∈ splitNl s, '\n' ∉ l := by
  induction s with
  | nil => intro l hl; simp [splitNl] at hl; simp [hl]
  | cons c t ih =>
    intro l hl
    by_cases hc : c = '\n'
    · subst hc
      rw [splitNl, if_pos rfl] at hl
      rcases List.mem_cons.mp hl with h | h
      · simp [h]
      · exact ih l h
    · rw [splitNl, if_neg hc] at hl
      cases hx : splitNl t with
      | nil => exact absurd hx (splitNl_ne_nil t)
      | cons h r =>
        rw [hx] at hl
        rcases List.mem_cons.mp hl with hh | hh
        · subst hh
          intro hmem
          rcases List.mem_cons.mp hmem with h1 | h1
          · exact hc h1.symm
          · exact ih h (hx ▸ List.mem_cons_self h r) h1
        · exact ih l (hx ▸ List.mem_cons_of_mem h hh)

theorem cleanLinesAux_cons_ne {b : Bool} {l : List Char} {t : List (List Char)}
    (h : pyStrip l ≠ []) :
    cleanLinesAux b (l :: t) = pyStrip l :: cleanLinesAux true t := by
  simp only [cleanLinesAux]
  rw [if_pos h]

theorem cleanLinesAux_cons_blank_true {l : List Char} {t : List (List Char)}
    (h : pyStrip l = []) :
    cleanLinesAux true (l :: t) = [] :: cleanLinesAux false t := by
  simp only [cleanLinesAux]
  rw [if_neg (by simp [h])]
  simp

theorem cleanLinesAux_cons_blank_false {l : List Char} {t : List (List Char)}
    (h : pyStrip l = []) :
    cleanLinesAux false (l :: t) = cleanLinesAux false t := by
  simp only [cleanLinesAux]
  rw [if_neg (by simp [h]), if_neg (by simp)]

theorem mem_cleanLinesAux_strip {b : Bool} {L : List (List Char)} :
    ∀ m ∈ cleanLinesAux b L, pyStrip m = m := by
  induction L generalizing b with
  | nil => intro m hm; simp [cleanLinesAux] at hm
  | cons l t ih =>
    intro m hm
    by_cases hcl : pyStrip l = []
    · cases b with
      | false =>
        rw [cleanLinesAux_cons_blank_false hcl] at hm
        exact ih m hm
      | true =>
        rw [cleanLinesAux_cons_blank_true hcl] at hm
        rcases List.mem_cons.mp hm with h | h
        · subst h; rfl
        · exact ih m h
    · rw [cleanLinesAux_cons_ne hcl] at hm
      rcases List.mem_cons.mp hm with h | h
      · subst h; exact pyStrip_idem l
      · exact ih m h

theorem mem_cleanLinesAux_no_nl {b : Bool} {L : List (List Char)}
    (hL : ∀ l ∈ L, '\n' ∉ l) : ∀ m ∈ cleanLinesAux b L, '\n' ∉ m := by
  induction L generalizing b with
  | nil => intro m hm; simp [cleanLinesAux] at hm
  | cons l t ih =>
    intro m hm
    have hl := hL l (List.mem_cons_self l t)
    have ht : ∀ a ∈ t, '\n' ∉ a := fun a ha => hL a (List.mem_cons_of_mem l ha)
    by_cases hcl : pyStrip l = []
    · cases b with
      | false =>
        rw [cleanLinesAux_cons_blank_false hcl] at hm
        exact ih ht m hm
      | true =>
        rw [cleanLinesAux_cons_blank_true hcl] at hm
        rcases List.mem_cons.mp hm with h | h
        · subst h; simp
        · exact ih ht m h
    · rw [cleanLinesAux_cons_ne hcl] at hm
      rcases List.mem_cons.mp hm with h | h
      · subst h; exact fun hx => hl (pyStrip_subset hx)
      · exact ih ht m h

theorem cleanLinesAux_idem (L : List (List Char)) :
    ∀ b, cleanLinesAux b (cleanLinesAux b L) = cleanLinesAux b L := by
  induction L with
  | nil => intro b; rfl
  | cons l t ih =>
    intro b
    by_cases hcl : pyStrip l = []
    · cases b with
      | false => rw [cleanLinesAux_cons_blank_false hcl, ih false]
      | true =>
        rw [cleanLinesAux_cons_blank_true hcl, cleanLinesAux_cons_blank_true (l := []) rfl,
          ih false]
    · rw [cleanLinesAux_cons_ne hcl,
        cleanLinesAux_cons_ne (by rw [pyStrip_idem]; exact hcl), pyStrip_idem, ih true]

theorem cleanLinesAux_map (L : List (List Char)) :
    ∀ b, cleanLinesAux b (L.map (List.map ocrCharFix)) =
      (cleanLinesAux b L).map (List.map ocrCharFix) := by
  induction L with
  | nil => intro b; rfl
  | cons l t ih =>
    intro b
    simp only [List.map_cons]
    by_cases hcl : pyStrip l = []
    · have h2 : pyStrip (l.map ocrCharFix) = [] := by
        rw [pyStrip_map_ocr, hcl]
        rfl
      cases b with
      | false => rw [cleanLinesAux_cons_blank_false h2, cleanLinesAux_cons_blank_false hcl, ih]
      | true =>
        rw [cleanLinesAux_cons_blank_true h2, cleanLinesAux_cons_blank_true hcl, ih false]
        simp
    · have h2 : pyStrip (l.map ocrCharFix) ≠ [] := by
        rw [pyStrip_map_ocr]
        exact fun hx => hcl (List.map_eq_nil_iff.mp hx)
      rw [cleanLinesAux_cons_ne h2, cleanLinesAux_cons_ne hcl, ih true, pyStrip_map_ocr]
      simp

theorem cleanLinesAux_false_head {L : List (List Char)} {m : List Char}
    (h : (cleanLinesAux false L).head? = some m) : m ≠ [] := by
  induction L with
  | nil => simp [cleanLinesAux] at h
  | cons l t ih =>
    by_cases hcl : pyStrip l = []
    · rw [cleanLinesAux_cons_blank_false hcl] at h
      exact ih h
    · rw [cleanLinesAux_cons_ne hcl] at h
      simp only [List.head?_cons, Option.some.injEq] at h
      exact h ▸ hcl

theorem cleanLinesAux_chain (L : List (List Char)) :
    ∀ b, (cleanLinesAux b L).Chain' (fun a c => a ≠ [] ∨ c ≠ []) := by
  induction L with
  | nil => intro b; simp [cleanLinesAux]
  | cons l t ih =>
    intro b
    by_cases hcl : pyStrip l = []
    · cases b with
      | false => rw [cleanLinesAux_cons_blank_false hcl]; exact ih false
      | true =>
        rw [cleanLinesAux_cons_blank_true hcl, List.chain'_cons']
        exact ⟨fun m hm => Or.inr (cleanLinesAux_false_head (Option.mem_def.mp hm)), ih false⟩
    · rw [cleanLinesAux_cons_ne hcl, List.chain'_cons']
      exact ⟨fun m _ => Or.inl hcl, ih true⟩

theorem cleanLines_map (L : List (List Char)) :
    cleanLines (L.map (List.map ocrCharFix)) = (cleanLines L).map (List.map ocrCharFix) :=
  cleanLinesAux_map L false

theorem cleanLines_idem (L : List (List Char)) : cleanLines (cleanLines L) = cleanLines L :=
  cleanLinesAux_idem L false

theorem clean_eq {t : List Char} (ht : t ≠ []) :
    clean_financial_text t = (joinNl (cleanLines (splitNl t))).map ocrCharFix := by
  rw [clean_financial_text, if_neg ht, fix_eq_map]

theorem cleanLines_ne_nil_of_clean_ne_nil {t : List Char} (hy : clean_financial_text t ≠ []) :
    cleanLines (splitNl t) ≠ [] := by
  have hx : t ≠ [] := by rintro rfl; exact hy rfl
  intro h
  apply hy
  rw [clean_eq hx, h]
  rfl

theorem clean_split_eq {t : List Char} (hy : clean_financial_text t ≠ []) :
    splitNl (clean_financial_text t) = (cleanLines (splitNl t)).map (List.map ocrCharFix) := by
  have hx : t ≠ [] := by rintro rfl; exact hy rfl
  rw [clean_eq hx, splitNl_map,
    splitNl_joinNl (cleanLines_ne_nil_of_clean_ne_nil hy)
      (mem_cleanLinesAux_no_nl (mem_splitNl_no_nl t))]

/-- C5: the whole text normalizer (line trimming, blank-line collapsing and
the OCR substitution table) is idempotent: cleaning an already cleaned
string changes nothing. -/
theorem C5_clean_idempotent (x : List Char) :
    clean_financial_text (clean_financial_text x) = clean_financial_text x := by
  by_cases hx : x = []
  · subst hx; rfl
  by_cases hy : clean_financial_text x = []
  · rw [hy]; rfl
  · rw [clean_eq hy, clean_split_eq hy, cleanLines_map, cleanLines_idem, joinNl_map,
      List.map_map, show (ocrCharFix ∘ ocrCharFix) = ocrCharFix from funext ocrCharFix_idem,
      ← clean_eq hx]

/-- C9: the text normalizer is a pure total function: empty input yields
empty output, every line of the output is trimmed, and no two adjacent
output lines are both blank (blank-line runs are collapsed). -/
theorem C9_normalizer_shape (t : List Char) :
    clean_financial_text [] = [] ∧
    (∀ l ∈ splitNl (clean_financial_text t), pyStrip l = l) ∧
    (splitNl (clean_financial_text t)).Chain' (fun a b => a ≠ [] ∨ b ≠ []) := by
  refine ⟨rfl, ?_, ?_⟩
  · intro l hl
    by_cases hy : clean_financial_text t = []
    · rw [hy] at hl
      simp only [splitNl] at hl
      rcases List.mem_singleton.mp hl with rfl
      rfl
    · rw [clean_split_eq hy] at hl
      obtain ⟨m, hm, rfl⟩ := List.mem_map.mp hl
      rw [pyStrip_map_ocr, mem_cleanLinesAux_strip m hm]
  · by_cases hy : clean_financial_text t = []
    · rw [hy]
      simp [splitNl]
    · rw [clean_split_eq hy, List.chain'_map]
      apply List.Chain'.imp ?_ (cleanLinesAux_chain (splitNl t) false)
      intro a b h
      rcases h with h | h
      · exact Or.inl (fun hx => h (List.map_eq_nil_iff.mp hx))
      · exact Or.inr (fun hx => h (List.map_eq_nil_iff.mp hx))

/-- C10: the multi-character corrections in the OCR substitution table never
take effect: the earlier single-character rules eliminate every `l` and `I`
first, so the table acts as the pointwise map `ocrCharFix`; in particular
the word lnvoice is rewritten to 1nvoice, never to Invoice. -/
theorem C10_ocr_multichar_rules_dead :
    fix_common_ocr_errors "lnvoice".data = "1nvoice".data ∧
    ∀ s : List Char, fix_common_ocr_errors s = s.map ocrCharFix := by
  refine ⟨?_, fix_eq_map⟩
  rw [fix_eq_map]
  decide

/-- The fixed financial keyword list of `validate_text_quality` (app.py
line 50); the Python code lowercases each keyword, which is a no-op here. -/
def financialKeywords : List (List Char) :=
  ["invoice".data, "total".data, "amount".data, "vat".data, "btw".data,
   "date".data, "payment".data, "receipt".data, "statement".data]

/-- The currency markers of `validate_text_quality` (app.py line 61). -/
def currencySymbols : List (List Char) :=
  ["€".data, "$".data, "£".data, "USD".data, "EUR".data, "GBP".data]

/-- ASCII reading of the regex word class used by the noise heuristic. -/
def pyIsWordChar (c : Char) : Bool :=
  c.isAlphanum || c = '_'

/-- Characters matched by the OCR-noise character class (app.py line 66). -/
def isNoiseChar (c : Char) : Bool :=
  !(pyIsWordChar c || pyIsSpace c ||
    c ∈ ['€', '$', '£', '.', ',', ':', ';', '(', ')', '-'])

/-- Count of maximal runs of digits, the length of the match list of a
digit-run search (app.py line 56). -/
def countRunsAux (inRun : Bool) : List Char → Nat
  | [] => 0
  | c :: t =>
    if c.isDigit then (if inRun then 0 else 1) + countRunsAux true t
    else countRunsAux false t

def countDigitRuns (s : List Char) : Nat :=
  countRunsAux false s

/-- Four or more equal consecutive characters, none of them a newline (the
dot of the Python regex does not match newlines; app.py line 71). -/
def hasRepeat4 : List Char → Bool
  | a :: b :: c :: d :: t =>
    (decide (a ≠ '\n') && a == b && b == c && c == d) || hasRepeat4 (b :: c :: d :: t)
  | _ => false

/-- app.py `validate_text_quality`: sequential penalty subtraction from a
base score of 100, clamped into [0, 100] at the end. -/
def validate_text_quality (t : List Char) : Int :=
  if t = [] ∨ (pyStrip t).length < 10 then 0
  else
    let score : Int := 100
    let score := if t.length < 50 then score - 30 else score
    let score :=
      if financialKeywords.countP (fun k => containsSub k (t.map pyLower)) < 3 then score - 20
      else score
    let score := if countDigitRuns t < 3 then score - 15 else score
    let score := if !(currencySymbols.any (fun s => containsSub s t)) then score - 10 else score
    let score := if 10 * t.countP isNoiseChar > t.length then score - 25 else score
    let score := if hasRepeat4 t then score - 15 else score
    max 0 (min 100 score)

/-- The penalty total as the specification words it: one summand per
heuristic. -/
def qualityPenalty (t : List Char) : Int :=
  (if t.length < 50 then 30 else 0) +
  (if financialKeywords.countP (fun k => containsSub k (t.map pyLower)) < 3 then 20 else 0) +
  (if countDigitRuns t < 3 then 15 else 0) +
  (if !(currencySymbols.any (fun s => containsSub s t)) then 10 else 0) +
  (if 10 * t.countP isNoiseChar > t.length then 25 else 0) +
  (if hasRepeat4 t then 15 else 0)

/-- The score as the specification words it: 100 minus the penalty total,
clamped into [0, 100], with the degenerate-input short circuit. -/
def quality_spec (t : List Char) : Int :=
  if t = [] ∨ (pyStrip t).length < 10 then 0
  else max 0 (min 100 (100 - qualityPenalty t))

theorem vtq_eq_spec (t : List Char) : validate_text_quality t = quality_spec t := by
  unfold validate_text_quality quality_spec qualityPenalty
  dsimp only
  split_ifs <;> omega

theorem vtq_nonneg (t : List Char) : 0 ≤ validate_text_quality t := by
  rw [vtq_eq_spec]
  unfold quality_spec
  split_ifs <;> omega

theorem vtq_le_100 (t : List Char) : validate_text_quality t ≤ 100 := by
  rw [vtq_eq_spec]
  unfold quality_spec
  split_ifs <;> omega

/-- C3: the quality score equals 100 minus the sum of the applicable
penalties (length, keywords, numeric tokens, currency marker, noise ratio,
repeated characters), clamped into [0, 100]; degenerate input (empty or
trimmed length below 10) scores 0 immediately, and every score lies in
[0, 100]. -/
theorem C3_quality_score_formula (t : List Char) :
    validate_text_quality t = quality_spec t ∧
    0 ≤ validate_text_quality t ∧ validate_text_quality t ≤ 100 :=
  ⟨vtq_eq_spec t, vtq_nonneg t, vtq_le_100 t⟩

theorem containsSub_iff {pat s : List Char} : containsSub pat s = true ↔ pat <:+: s := by
  induction s with
  | nil =>
    simp only [containsSub, List.isEmpty_iff, List.infix_nil]
  | cons a t ih =>
    simp only [containsSub, Bool.or_eq_true, List.isPrefixOf_iff_prefix, ih]
    exact (List.infix_cons_iff).symm

theorem infix_filter {p : Char → Bool} {k s : List Char} (hk : ∀ c ∈ k, p c = true)
    (h : k <:+: s) : k <:+: s.filter p := by
  obtain ⟨u, v, rfl⟩ := h
  rw [List.filter_append, List.filter_append, List.filter_eq_self.mpr hk]
  exact ⟨_, _, rfl⟩

/-- Removal of exactly the characters counted by the noise heuristic. -/
def removeNoise (t : List Char) : List Char :=
  t.filter (fun c => !(isNoiseChar c))

theorem isNoiseChar_pyLower (c : Char) : isNoiseChar (pyLower c) = isNoiseChar c := by
  unfold pyLower
  split <;> rfl

theorem map_pyLower_removeNoise (t : List Char) :
    (removeNoise t).map pyLower = (t.map pyLower).filter (fun c => !(isNoiseChar c)) := by
  unfold removeNoise
  rw [List.filter_map]
  congr 1
  apply List.filter_congr
  intro c _
  simp only [Function.comp_apply, isNoiseChar_pyLower]

theorem keyword_chars : ∀ k ∈ financialKeywords, ∀ c ∈ k, (!(isNoiseChar c)) = true := by
  decide

theorem currency_chars : ∀ s ∈ currencySymbols, ∀ c ∈ s, (!(isNoiseChar c)) = true := by
  decide

theorem keyword_count_mono (t : List Char) :
    financialKeywords.countP (fun k => containsSub k (t.map pyLower)) ≤
      financialKeywords.countP (fun k => containsSub k ((removeNoise t).map pyLower)) := by
  apply List.countP_mono_left
  intro k hk hmem
  rw [containsSub_iff] at hmem ⊢
  rw [map_pyLower_removeNoise]
  exact infix_filter (keyword_chars k hk) hmem

theorem currency_mono {t : List Char}
    (h : currencySymbols.any (fun s => containsSub s t) = true) :
    currencySymbols.any (fun s => containsSub s (removeNoise t)) = true := by
  rw [List.any_eq_true] at h ⊢
  obtain ⟨sym, hsym, hc⟩ := h
  refine ⟨sym, hsym, ?_⟩
  rw [containsSub_iff] at hc ⊢
  exact infix_filter (currency_chars sym hsym) hc

theorem removeNoise_noise_count (t : List Char) : (removeNoise t).countP isNoiseChar = 0 := by
  rw [List.countP_eq_zero]
  intro c hc
  have := (List.mem_filter.mp hc).2
  simp only [Bool.not_eq_true'] at this
  simp [this]

theorem qualityPenalty_mono (t : List Char)
    (h1 : t.length < 50 ∨ 50 ≤ (removeNoise t).length)
    (h2 : countDigitRuns t < 3 ∨ 3 ≤ countDigitRuns (removeNoise t))
    (h3 : hasRepeat4 (removeNoise t) = true → hasRepeat4 t = true) :
    qualityPenalty (removeNoise t) ≤ qualityPenalty t := by
  unfold qualityPenalty
  have e1 : (if (removeNoise t).length < 50 then (30 : Int) else 0) ≤
      (if t.length < 50 then (30 : Int) else 0) := by
    rcases h1 with h | h <;> split_ifs <;> omega
  have hkw := keyword_count_mono t
  have e2 : (if financialKeywords.countP
        (fun k => containsSub k ((removeNoise t).map pyLower)) < 3 then (20 : Int) else 0) ≤
      (if financialKeywords.countP (fun k => containsSub k (t.map pyLower)) < 3 then (20 : Int)
        else 0) := by
    split_ifs <;> omega
  have e3 : (if countDigitRuns (removeNoise t) < 3 then (15 : Int) else 0) ≤
      (if countDigitRuns t < 3 then (15 : Int) else 0) := by
    rcases h2 with h | h <;> split_ifs <;> omega
  have e4 : (if !(currencySymbols.any (fun s => containsSub s (removeNoise t))) then (10 : Int)
        else 0) ≤
      (if !(currencySymbols.any (fun s => containsSub s t)) then (10 : Int) else 0) := by
    by_cases hcur : currencySymbols.any (fun s => containsSub s t) = true
    · rw [currency_mono hcur, hcur]
    · cases hb : currencySymbols.any (fun s => containsSub s t) with
      | true => exact absurd hb hcur
      | false =>
        simp only [Bool.not_false]
        split_ifs <;> omega
  have e5 : (if 10 * (removeNoise t).countP isNoiseChar > (removeNoise t).length then (25 : Int)
        else 0) ≤
      (if 10 * t.countP isNoiseChar > t.length then (25 : Int) else 0) := by
    rw [removeNoise_noise_count]
    split_ifs <;> omega
  have e6 : (if hasRepeat4 (removeNoise t) then (15 : Int) else 0) ≤
      (if hasRepeat4 t then (15 : Int) else 0) := by
    by_cases hrep : hasRepeat4 (removeNoise t) = true
    · rw [hrep, h3 hrep]
    · split_ifs <;> omega
  exact add_le_add (add_le_add (add_le_add (add_le_add (add_le_add e1 e2) e3) e4) e5) e6

/-- C6 counterexample: a 55-character string with ten noise characters loses
25 points to the noise penalty; deleting the noise shortens it below the
50-character threshold, trading the −25 for a −30, so the cleaned string
scores strictly lower. -/
theorem C6_counterexample :
    validate_text_quality
        (removeNoise "abcabcabcabcabcabcabcabcabcabcabcabcabcabcabc#@#@#@#@#@".data) <
      validate_text_quality "abcabcabcabcabcabcabcabcabcabcabcabcabcabcabc#@#@#@#@#@".data := by
  decide

/-- C6 (amended): removing the noise characters never lowers the quality
score, provided the removal leaves a non-degenerate string (trimmed length
at least 10), does not drop the text below the 50-character length
threshold, does not drop the numeric-token count below 3, and does not
create a new run of four equal characters. Keyword, currency and noise
penalties are monotone unconditionally. -/
theorem C6_amended_noise_monotone (t : List Char)
    (h0 : ¬(removeNoise t = [] ∨ (pyStrip (removeNoise t)).length < 10))
    (h1 : t.length < 50 ∨ 50 ≤ (removeNoise t).length)
    (h2 : countDigitRuns t < 3 ∨ 3 ≤ countDigitRuns (removeNoise t))
    (h3 : hasRepeat4 (removeNoise t) = true → hasRepeat4 t = true) :
    validate_text_quality t ≤ validate_text_quality (removeNoise t) := by
  rw [vtq_eq_spec, vtq_eq_spec]
  by_cases hdeg : t = [] ∨ (pyStrip t).length < 10
  · rw [quality_spec, if_pos hdeg, quality_spec, if_neg h0]
    omega
  · rw [quality_spec, if_neg hdeg, quality_spec, if_neg h0]
    have hp := qualityPenalty_mono t h1 h2 h3
    omega

/-- C6 amended witness: a noise-free financial phrase satisfies all four
side conditions and the monotonicity conclusion. -/
theorem C6_amended_noise_monotone_witness :
    validate_text_quality "invoice total amount".data ≤
      validate_text_quality (removeNoise "invoice total amount".data) :=
  C6_amended_noise_monotone "invoice total amount".data (by decide) (by decide) (by decide)
    (by decide)

/-- The closed category set of the document classifier
(orchestrator.py line 12). -/
inductive DocumentCategory
  | invoice
  | bank_statement
  | tax_document
  | receipt
  | financial_report
  | other
deriving DecidableEq

/-- The label string the classifier returns for each category. -/
def DocumentCategory.label : DocumentCategory → List Char
  | .invoice => "invoice".data
  | .bank_statement => "bank_statement".data
  | .tax_document => "tax_document".data
  | .receipt => "receipt".data
  | .financial_report => "financial_report".data
  | .other => "other".data

/-- The three specialized extraction entry points of orchestrator.py. -/
inductive ExtractorRoute
  | invoiceExtractor
  | bankStatementExtractor
  | generalExtractor
deriving DecidableEq

/-- app.py lines 214-222: branch on the classifier label; `none` models the
warn-and-skip fall-through for unknown labels. -/
def dispatchRoute (doc_type : List Char) : Option ExtractorRoute :=
  if doc_type = "invoice".data then some .invoiceExtractor
  else if doc_type = "bank_statement".data then some .bankStatementExtractor
  else if doc_type = "tax_document".data ∨ doc_type = "receipt".data ∨
      doc_type = "financial_report".data ∨ doc_type = "other".data then
    some .generalExtractor
  else none

/-- The routing the claim prescribes per category. -/
def expectedRoute : DocumentCategory → ExtractorRoute
  | .invoice => .invoiceExtractor
  | .bank_statement => .bankStatementExtractor
  | _ => .generalExtractor

/-- C2: every one of the six category labels is routed to exactly one of the
three specialized extractors — invoice to the invoice extractor,
bank_statement to the bank-statement extractor, the remaining four to the
general-document extractor — and the unhandled fall-through is never hit. -/
theorem C2_dispatch_total (c : DocumentCategory) :
    dispatchRoute c.label = some (expectedRoute c) := by
  cases c <;> rfl

/-- One OCR text line as consumed by the formatter: page number, top and
left of the bounding box, raw text (utils.py lines 80-92). The float
coordinates only ever feed order comparisons, so they are modelled as
fixed-point integers (the concrete instances below use tenths). -/
structure OcrLine where
  page : Nat
  top : Int
  left : Int
  text : List Char
deriving DecidableEq

/-- A block of the remote OCR response: a page marker or a text line. -/
inductive OcrBlock
  | pageBlock (page : Nat)
  | lineBlock (l : OcrLine)
deriving DecidableEq

/-- Python `pages[page_num] = []` on a PAGE block: reset or create. -/
def addPage (p : Nat) : List (Nat × List OcrLine) → List (Nat × List OcrLine)
  | [] => [(p, [])]
  | (q, ls) :: d => if q = p then (q, []) :: d else (q, ls) :: addPage p d

/-- Python `pages[page_num].append(block)` on a LINE block. -/
def addLine (l : OcrLine) : List (Nat × List OcrLine) → List (Nat × List OcrLine)
  | [] => [(l.page, [l])]
  | (q, ls) :: d => if q = l.page then (q, ls ++ [l]) :: d else (q, ls) :: addLine l d

/-- One step of the dictionary-building loop. -/
def buildStep (d : List (Nat × List OcrLine)) (b : OcrBlock) : List (Nat × List OcrLine) :=
  match b with
  | .pageBlock p => addPage p d
  | .lineBlock l => addLine l d

/-- The page dictionary built by the first loop of
`extract_text_with_formatting` (utils.py lines 75-84). -/
def buildPages (blocks : List OcrBlock) : List (Nat × List OcrLine) :=
  blocks.foldl buildStep []

/-- Python tuple comparison on the sort key (top, left). -/
def lineLe (x y : OcrLine) : Prop :=
  x.top < y.top ∨ (x.top = y.top ∧ x.left ≤ y.left)

instance : DecidableRel lineLe := fun x y => by
  unfold lineLe
  infer_instance

instance : IsTotal OcrLine lineLe := by
  constructor
  intro x y
  unfold lineLe
  rcases lt_trichotomy x.top y.top with h | h | h
  · exact Or.inl (Or.inl h)
  · rcases le_total x.left y.left with h' | h'
    · exact Or.inl (Or.inr ⟨h, h'⟩)
    · exact Or.inr (Or.inr ⟨h.symm, h'⟩)
  · exact Or.inr (Or.inl h)

instance : IsTrans OcrLine lineLe := by
  constructor
  intro x y z hxy hyz
  unfold lineLe at hxy hyz ⊢
  rcases hxy with h1 | ⟨h1, h2⟩ <;> rcases hyz with h3 | ⟨h3, h4⟩
  · exact Or.inl (h1.trans h3)
  · exact Or.inl (h3 ▸ h1)
  · exact Or.inl (h1 ▸ h3)
  · exact Or.inr ⟨h1.trans h3, h2.trans h4⟩

/-- Python `lines.sort(key=(top, left))`: a stable sort. -/
def sortLines (ls : List OcrLine) : List OcrLine :=
  List.insertionSort lineLe ls

/-- Dictionary access `pages[k]` (always present for iterated keys). -/
def lookupLines (k : Nat) (d : List (Nat × List OcrLine)) : List OcrLine :=
  match d.find? (fun e => e.1 = k) with
  | some e => e.2
  | none => []

/-- The rendered text of one page: sorted lines, stripped, non-blank lines
followed by one newline (utils.py lines 89-97). -/
def pageBody (d : List (Nat × List OcrLine)) (k : Nat) : List Char :=
  ((sortLines (lookupLines k d)).map (fun l =>
    if pyStrip l.text = [] then [] else pyStrip l.text ++ ['\n'])).flatten

def pageBreakSep : List Char := "\n--- PAGE BREAK ---\n".data

/-- Python `max(pages.keys())`. -/
def maxKey (d : List (Nat × List OcrLine)) : Nat :=
  (d.map Prod.fst).foldl max 0

/-- Python `sorted(pages.keys())`. -/
def sortedKeys (d : List (Nat × List OcrLine)) : List Nat :=
  List.insertionSort (· ≤ ·) (d.map Prod.fst)

/-- utils.py `extract_text_with_formatting`: loop over sorted page keys,
append each page body, append the page-break separator whenever the key is
below the maximal key, and strip the result. -/
def extract_text_with_formatting (blocks : List OcrBlock) : List Char :=
  pyStrip (((sortedKeys (buildPages blocks)).map (fun k =>
    pageBody (buildPages blocks) k ++
      if k < maxKey (buildPages blocks) then pageBreakSep else [])).flatten)

/-- Join with a separator between entries, never after the last one. -/
def joinSep (sep : List Char) : List (List Char) → List Char
  | [] => []
  | [x] => x
  | x :: y :: t => x ++ sep ++ joinSep sep (y :: t)

/-- Separator placement as the spec words it: page bodies in ascending page
order with the break marker strictly between consecutive pages. -/
def formatting_spec (blocks : List OcrBlock) : List Char :=
  pyStrip (joinSep pageBreakSep ((sortedKeys (buildPages blocks)).map
    (pageBody (buildPages blocks))))

theorem mem_keys_addPage {x p : Nat} {d : List (Nat × List OcrLine)} :
    x ∈ (addPage p d).map Prod.fst ↔ x ∈ d.map Prod.fst ∨ x = p := by
  induction d with
  | nil => simp [addPage]
  | cons e d ih =>
    obtain ⟨q, ls⟩ := e
    by_cases hq : q = p
    · subst hq
      simp only [addPage]
      rw [if_pos trivial]
      simp only [List.map_cons, List.mem_cons]
      tauto
    · simp only [addPage]
      rw [if_neg hq]
      simp only [List.map_cons, List.mem_cons, ih]
      tauto

theorem mem_keys_addLine {x : Nat} {l : OcrLine} {d : List (Nat × List OcrLine)} :
    x ∈ (addLine l d).map Prod.fst ↔ x ∈ d.map Prod.fst ∨ x = l.page := by
  induction d with
  | nil => simp [addLine]
  | cons e d ih =>
    obtain ⟨q, ls⟩ := e
    by_cases hq : q = l.page
    · subst hq
      simp only [addLine]
      rw [if_pos trivial]
      simp only [List.map_cons, List.mem_cons]
      tauto
    · simp only [addLine]
      rw [if_neg hq]
      simp only [List.map_cons, List.mem_cons, ih]
      tauto

theorem nodup_keys_addPage {p : Nat} {d : List (Nat × List OcrLine)}
    (h : (d.map Prod.fst).Nodup) : ((addPage p d).map Prod.fst).Nodup := by
  induction d with
  | nil => simp [addPage]
  | cons e d ih =>
    obtain ⟨q, ls⟩ := e
    simp only [List.map_cons, List.nodup_cons] at h
    by_cases hq : q = p
    · subst hq
      simp only [addPage]
      rw [if_pos trivial]
      simp only [List.map_cons, List.nodup_cons]
      exact h
    · simp only [addPage]
      rw [if_neg hq]
      simp only [List.map_cons, List.nodup_cons]
      refine ⟨fun hmem => ?_, ih h.2⟩
      rcases mem_keys_addPage.mp hmem with hm | hm
      · exact h.1 hm
      · exact hq hm

theorem nodup_keys_addLine {l : OcrLine} {d : List (Nat × List OcrLine)}
    (h : (d.map Prod.fst).Nodup) : ((addLine l d).map Prod.fst).Nodup := by
  induction d with
  | nil => simp [addLine]
  | cons e d ih =>
    obtain ⟨q, ls⟩ := e
    simp only [List.map_cons, List.nodup_cons] at h
    by_cases hq : q = l.page
    · subst hq
      simp only [addLine]
      rw [if_pos trivial]
      simp only [List.map_cons, List.nodup_cons]
      exact h
    · simp only [addLine]
      rw [if_neg hq]
      simp only [List.map_cons, List.nodup_cons]
      refine ⟨fun hmem => ?_, ih h.2⟩
      rcases mem_keys_addLine.mp hmem with hm | hm
      · exact h.1 hm
      · exact hq hm

theorem nodup_keys_buildAux :
    ∀ (bs : List OcrBlock) (d : List (Nat × List OcrLine)),
      (d.map Prod.fst).Nodup → ((bs.foldl buildStep d).map Prod.fst).Nodup := by
  intro bs
  induction bs with
  | nil => intro d h; simpa using h
  | cons b bs ih =>
    intro d h
    simp only [List.foldl_cons]
    apply ih
    cases b with
    | pageBlock p => exact nodup_keys_addPage h
    | lineBlock l => exact nodup_keys_addLine h

theorem nodup_keys_buildPages (blocks : List OcrBlock) :
    ((buildPages blocks).map Prod.fst).Nodup :=
  nodup_keys_buildAux blocks [] (by simp)

theorem foldl_max_init_le : ∀ (l : List Nat) (b : Nat), b ≤ l.foldl max b := by
  intro l
  induction l with
  | nil => intro b; exact le_rfl
  | cons c t ih => intro b; exact le_trans (le_max_left b c) (ih (max b c))

theorem le_foldl_max {a : Nat} : ∀ (l : List Nat) (b : Nat), a ∈ l → a ≤ l.foldl max b := by
  intro l
  induction l with
  | nil => intro b h; simp at h
  | cons c t ih =>
    intro b h
    rcases List.mem_cons.mp h with rfl | h
    · exact le_trans (le_max_right b a) (foldl_max_init_le t (max b a))
    · exact ih (max b c) h

theorem foldl_max_mem : ∀ (t : List Nat) (c : Nat), t.foldl max c ∈ c :: t := by
  intro t
  induction t with
  | nil => intro c; simp
  | cons d t ih =>
    intro c
    simp only [List.foldl_cons]
    have h := ih (max c d)
    rcases List.mem_cons.mp h with h | h
    · rw [h]
      rcases max_choice c d with hm | hm <;> rw [hm] <;> simp
    · exact List.mem_cons_of_mem c (List.mem_cons_of_mem d h)

theorem maxKey_mem {d : List (Nat × List OcrLine)} (h : d.map Prod.fst ≠ []) :
    maxKey d ∈ d.map Prod.fst := by
  unfold maxKey
  cases hk : d.map Prod.fst with
  | nil => exact absurd hk h
  | cons k rest =>
    have hmem := foldl_max_mem rest (max 0 k)
    rw [Nat.zero_max] at hmem
    simp only [List.foldl_cons, Nat.zero_max]
    exact hmem

theorem joinSep_cons_cons (sep x y : List Char) (t : List (List Char)) :
    joinSep sep (x :: y :: t) = x ++ sep ++ joinSep sep (y :: t) := rfl

theorem loop_eq_joinSep (body : Nat → List Char) (sep : List Char) :
    ∀ (ks : List Nat) (M : Nat), ks.Sorted (· < ·) → (∀ k ∈ ks, k ≤ M) →
      (ks ≠ [] → M ∈ ks) →
      (ks.map (fun k => body k ++ if k < M then sep else [])).flatten =
        joinSep sep (ks.map body) := by
  intro ks
  induction ks with
  | nil => intro M _ _ _; rfl
  | cons a ks ih =>
    intro M hs hle hM
    cases ks with
    | nil =>
      have ha : M = a := by
        have := hM (by simp)
        simpa using this
      subst ha
      simp [joinSep]
    | cons b ks' =>
      have hab : a < b := (List.sorted_cons.mp hs).1 b (by simp)
      have hM' : M ∈ b :: ks' := by
        rcases List.mem_cons.mp (hM (by simp)) with hMa | h
        · have hb := hle b (by simp)
          omega
        · exact h
      have haM : a < M := (List.sorted_cons.mp hs).1 M hM'
      rw [List.map_cons, List.flatten_cons, if_pos haM]
      rw [ih M (List.sorted_cons.mp hs).2 (fun k hk => hle k (List.mem_cons_of_mem a hk))
        (fun _ => hM')]
      conv_rhs => rw [List.map_cons, List.map_cons, joinSep_cons_cons, ← List.map_cons]

theorem sortedKeys_sorted_lt (blocks : List OcrBlock) :
    (sortedKeys (buildPages blocks)).Sorted (· < ·) := by
  have hperm := List.perm_insertionSort (α := Nat) (· ≤ ·) ((buildPages blocks).map Prod.fst)
  have hsorted := List.sorted_insertionSort (α := Nat) (· ≤ ·) ((buildPages blocks).map Prod.fst)
  have hnd : (sortedKeys (buildPages blocks)).Nodup :=
    hperm.nodup_iff.mpr (nodup_keys_buildPages blocks)
  exact hsorted.lt_of_le hnd

/-- C4: within a page, lines are sorted ascending by (top, left) — on the
spec's two-line instance the formatter yields A before B — and the
page-break marker is placed exactly between consecutive pages, never after
the last one (the loop output equals a separator join of the page bodies in
ascending page order). -/
theorem C4_reading_order_and_page_breaks (blocks : List OcrBlock) :
    extract_text_with_formatting
        [OcrBlock.lineBlock ⟨1, 5, 1, "B".data⟩, OcrBlock.lineBlock ⟨1, 1, 2, "A".data⟩] =
      "A\nB".data ∧
    extract_text_with_formatting blocks = formatting_spec blocks ∧
    ∀ ls : List OcrLine, (sortLines ls).Sorted lineLe ∧ (sortLines ls).Perm ls := by
  refine ⟨by decide, ?_, ?_⟩
  · unfold extract_text_with_formatting formatting_spec
    congr 1
    apply loop_eq_joinSep
    · exact sortedKeys_sorted_lt blocks
    · intro k hk
      have hkk : k ∈ (buildPages blocks).map Prod.fst :=
        (List.perm_insertionSort _ _).subset hk
      unfold maxKey
      exact le_foldl_max _ 0 hkk
    · intro hne
      have hkeys : (buildPages blocks).map Prod.fst ≠ [] := by
        intro h
        apply hne
        unfold sortedKeys
        rw [h]
        rfl
      exact (List.perm_insertionSort _ _).mem_iff.mpr (maxKey_mem hkeys)
  · intro ls
    exact ⟨List.sorted_insertionSort lineLe ls, List.perm_insertionSort lineLe ls⟩

/-- A file handed to the extraction utilities: its name and, when the PDF
parser can read the structure, the per-page extracted texts (PyPDF2
`reader.pages[i].extract_text()`); `none` models a parser failure. -/
structure UploadFile where
  name : List Char
  pdfPages : Option (List (List Char))

/-- The Python f-string `--- PAGE {n} ---` followed by a newline. -/
def pageMarker (n : Nat) : List Char :=
  "--- PAGE ".data ++ Nat.toDigits 10 n ++ " ---\n".data

/-- The page loop of `extract_text_from_pdf` (utils.py lines 193-199),
accumulating from page index `i`. -/
def pdfConcatFrom (i : Nat) : List (List Char) → List Char
  | [] => []
  | p :: ps =>
    (if pyStrip p ≠ [] then pageMarker (i + 1) ++ p ++ "\n\n".data else []) ++
      pdfConcatFrom (i + 1) ps

/-- utils.py `extract_text_from_pdf`: page texts with markers, stripped,
then normalized; a parser failure is re-raised with a wrapping message. -/
def extract_text_from_pdf (f : UploadFile) : Except (List Char) (List Char) :=
  match f.pdfPages with
  | none => .error "Failed to extract text from PDF".data
  | some ps => .ok (clean_financial_text (pyStrip (pdfConcatFrom 0 ps)))

/-- utils.py `extract_text_from_file`: dispatch on the lowercased name. -/
def extract_text_from_file (f : UploadFile) : Except (List Char) (List Char) :=
  if ".pdf".data.isSuffixOf (f.name.map pyLower) then extract_text_from_pdf f
  else .error "Unsupported file type for text extraction".data

/-- Page assembly as the spec words it: enumerate the pages, keep a marker
plus text for each page with non-blank text, in page order. -/
def pdf_pages_spec (ps : List (List Char)) : List Char :=
  (ps.enum.map (fun e =>
    if pyStrip e.2 = [] then [] else pageMarker (e.1 + 1) ++ e.2 ++ "\n\n".data)).flatten

theorem pdfConcatFrom_eq (ps : List (List Char)) :
    ∀ i, pdfConcatFrom i ps =
      ((List.enumFrom i ps).map (fun e =>
        if pyStrip e.2 = [] then [] else pageMarker (e.1 + 1) ++ e.2 ++ "\n\n".data)).flatten := by
  induction ps with
  | nil => intro i; rfl
  | cons p ps ih =>
    intro i
    simp only [pdfConcatFrom, List.enumFrom, List.map_cons, List.flatten_cons]
    by_cases hp : pyStrip p = []
    · rw [if_neg (fun h => h hp), if_pos hp, ih]
    · rw [if_pos hp, if_neg hp, ih]

/-- C7: for a file whose lowercased name ends in .pdf and whose structure
the parser reads, local extraction returns exactly the normalizer applied
to the stripped concatenation of page-markers plus non-blank page texts in
page order; a non-PDF name fails with the unsupported-format error and an
unreadable PDF fails with the extraction-failure error. -/
theorem C7_local_extraction (f : UploadFile) (ps : List (List Char)) :
    (".pdf".data.isSuffixOf (f.name.map pyLower) = true → f.pdfPages = some ps →
      extract_text_from_file f =
        .ok (clean_financial_text (pyStrip (pdf_pages_spec ps)))) ∧
    (".pdf".data.isSuffixOf (f.name.map pyLower) = false →
      extract_text_from_file f = .error "Unsupported file type for text extraction".data) ∧
    (".pdf".data.isSuffixOf (f.name.map pyLower) = true → f.pdfPages = none →
      extract_text_from_file f = .error "Failed to extract text from PDF".data) := by
  refine ⟨?_, ?_, ?_⟩
  · intro hname hpages
    unfold extract_text_from_file
    rw [if_pos hname]
    unfold extract_text_from_pdf
    rw [hpages]
    unfold pdf_pages_spec
    rw [show ps.enum = List.enumFrom 0 ps from rfl, ← pdfConcatFrom_eq]
  · intro hname
    unfold extract_text_from_file
    rw [if_neg (by simp [hname])]
  · intro hname hpages
    unfold extract_text_from_file
    rw [if_pos hname]
    unfold extract_text_from_pdf
    rw [hpages]

/-- C7 witness: a readable two-page PDF named a.pdf extracts via the
spec-side page assembly. -/
theorem C7_local_extraction_witness :
    extract_text_from_file ⟨"a.pdf".data, some ["hello".data, "  ".data]⟩ =
      .ok (clean_financial_text (pyStrip (pdf_pages_spec ["hello".data, "  ".data]))) :=
  (C7_local_extraction ⟨"a.pdf".data, some ["hello".data, "  ".data]⟩
    ["hello".data, "  ".data]).1 (by decide) rfl

/-- utils.py `extract_text_with_aws_textract_sync`, the Textract call
abstracted as `service`: a service failure is re-raised with a wrapping
message, success is formatted and then normalized. -/
def extract_text_with_aws_textract_sync
    (service : UploadFile → Except (List Char) (List OcrBlock)) (f : UploadFile) :
    Except (List Char) (List Char) :=
  match service f with
  | .error e => .error ("AWS Textract synchronous extraction failed: ".data ++ e)
  | .ok resp => .ok (clean_financial_text (extract_text_with_formatting resp))

/-- utils.py `extract_text_hybrid`: try the remote extractor when
`use_aws`, fall back to local extraction on any remote failure. -/
def extract_text_hybrid (service : UploadFile → Except (List Char) (List OcrBlock))
    (f : UploadFile) (use_aws : Bool) : Except (List Char) (List Char) :=
  if use_aws then
    match extract_text_with_aws_textract_sync service f with
    | .ok t => .ok t
    | .error _ => extract_text_from_file f
  else extract_text_from_file f

/-- C1: when remote extraction is preferred and the service fails, the
hybrid gateway returns exactly the local extractor's result on that file —
the remote error never reaches the caller; when remote is not preferred,
the result is the local extractor's result for every choice of remote
service, so the remote extractor is never consulted. -/
theorem C1_hybrid_fallback (service : UploadFile → Except (List Char) (List OcrBlock))
    (f : UploadFile) :
    (∀ e, service f = .error e →
      extract_text_hybrid service f true = extract_text_from_file f) ∧
    (∀ s₁ s₂ : UploadFile → Except (List Char) (List OcrBlock),
      extract_text_hybrid s₁ f false = extract_text_from_file f ∧
      extract_text_hybrid s₁ f false = extract_text_hybrid s₂ f false) := by
  constructor
  · intro e he
    unfold extract_text_hybrid
    rw [if_pos rfl]
    unfold extract_text_with_aws_textract_sync
    rw [he]
  · intro s₁ s₂
    exact ⟨rfl, rfl⟩

/-- C1 witness: an always-failing remote service on a readable PDF falls
back to the local result. -/
theorem C1_hybrid_fallback_witness :
    extract_text_hybrid (fun _ => .error "boom".data) ⟨"a.pdf".data, some ["x".data]⟩ true =
      extract_text_from_file ⟨"a.pdf".data, some ["x".data]⟩ :=
  (C1_hybrid_fallback (fun _ => .error "boom".data) ⟨"a.pdf".data, some ["x".data]⟩).1
    "boom".data rfl

/-- One spreadsheet cell; `none` is a missing value (NaN). -/
abbrev ExcelCell := Option (List Char)

/-- utils.py `process_excel_file` after the reader: drop rows whose cells
are all missing, then replace missing cells by the empty string. -/
def process_excel_file (rows : List (List ExcelCell)) : List (List (List Char)) :=
  (rows.filter (fun r => !(r.all Option.isNone))).map (fun r => r.map (fun c => c.getD []))

/-- The tabular result as the spec words it: rows keeping some value
survive, missing cells become empty strings. -/
def excel_spec (rows : List (List ExcelCell)) : List (List (List Char)) :=
  (rows.filter (fun r => r.any Option.isSome)).map (fun r => r.map (fun c => c.getD []))

theorem row_any_isSome (r : List ExcelCell) :
    (!(r.all Option.isNone)) = r.any Option.isSome := by
  induction r with
  | nil => rfl
  | cons c r ih => cases c <;> simp [List.all_cons, List.any_cons, ih]

theorem process_excel_eq_spec (rows : List (List ExcelCell)) :
    process_excel_file rows = excel_spec rows := by
  unfold process_excel_file excel_spec
  congr 1
  apply List.filter_congr
  intro r _
  exact row_any_isSome r

/-- An uploaded document as the app sees it: a name, the tabular content
(used only on the Excel branch) and the PDF content (used otherwise). -/
structure UploadedDoc where
  name : List Char
  excelRows : List (List ExcelCell)
  pdfPages : Option (List (List Char))

/-- app.py line 113: `file.name.endswith((".xlsx", ".xls"))`. -/
def isExcelName (name : List Char) : Bool :=
  ".xlsx".data.isSuffixOf name || ".xls".data.isSuffixOf name

/-- The per-file result of the extraction loop. -/
inductive ProcessedItem
  | excelItem (name : List Char) (table : List (List (List Char)))
  | textItem (name : List Char) (text : List Char) (quality : Int)
deriving DecidableEq

/-- app.py extraction loop body (lines 111-135) for one file: Excel files
go straight to `process_excel_file`; everything else goes through the
hybrid text extraction and quality scoring. -/
def extractStep (service : UploadFile → Except (List Char) (List OcrBlock)) (use_aws : Bool)
    (u : UploadedDoc) : Except (List Char) ProcessedItem :=
  if isExcelName u.name then
    .ok (.excelItem u.name (process_excel_file u.excelRows))
  else
    (extract_text_hybrid service ⟨u.name, u.pdfPages⟩ use_aws).map
      (fun t => .textItem u.name t (validate_text_quality t))

/-- The per-document analysis result. -/
inductive DocResult
  | tableRes (table : List (List (List Char)))
  | extractedRes (route : ExtractorRoute)
deriving DecidableEq

/-- app.py analysis loop (lines 202-244) for one item: Excel results pass
through untouched without any classifier call; text items are classified
and dispatched; `none` is the warn-and-skip fall-through. -/
def analyzeItem (classify : List Char → List Char) :
    ProcessedItem → Option (List Char × DocResult)
  | .excelItem n table => some (n, .tableRes table)
  | .textItem _ text _ =>
    (dispatchRoute (classify text)).map (fun r => (text, .extractedRes r))

/-- C8: an Excel upload bypasses text extraction and the classifier
entirely: its processed result does not depend on the OCR service, the
AWS flag or the classifier, and it is exactly the raw table with all-empty
rows removed and missing cells replaced by the empty string, returned
as-is by the analysis step. -/
theorem C8_excel_bypass (u : UploadedDoc) (hname : isExcelName u.name = true) :
    (∀ (s₁ s₂ : UploadFile → Except (List Char) (List OcrBlock)) (b₁ b₂ : Bool),
      extractStep s₁ b₁ u = extractStep s₂ b₂ u) ∧
    (∀ (service : UploadFile → Except (List Char) (List OcrBlock)) (b : Bool),
      extractStep service b u = .ok (.excelItem u.name (excel_spec u.excelRows))) ∧
    (∀ (classify : List Char → List Char) (name : List Char)
        (table : List (List (List Char))),
      analyzeItem classify (.excelItem name table) = some (name, .tableRes table)) := by
  refine ⟨?_, ?_, ?_⟩
  · intro s₁ s₂ b₁ b₂
    unfold extractStep
    rw [if_pos hname, if_pos hname]
  · intro service b
    unfold extractStep
    rw [if_pos hname, process_excel_eq_spec]
  · intro classify name table
    rfl

/-- C8 witness: a concrete .xlsx upload with one all-empty row. -/
theorem C8_excel_bypass_witness :
    extractStep (fun _ => .error []) false
        ⟨"t.xlsx".data, [[some "a".data, none], [none, none]], none⟩ =
      .ok (.excelItem "t.xlsx".data (excel_spec [[some "a".data, none], [none, none]])) :=
  (C8_excel_bypass ⟨"t.xlsx".data, [[some "a".data, none], [none, none]], none⟩
    (by decide)).2.1 (fun _ => .error []) false

end FinExtract
